import Mathlib

/-!
Verification of the QUBO scheduling core (`qubo.py`, `solver.py`, `app.py`).

The Python code is shallowly embedded: the binary quadratic model built by
`build_qubo` is represented as lists of additive linear/quadratic
contributions together with a constant offset (mirroring dimod's
`add_linear` / `add_quadratic` accumulation), the parameter assembly of
`solve_qubo` and the beta-range guard of `app.main` are embedded as pure
functions, and `parse_sampleset` is embedded with association lists
standing for Python dicts (insertion-ordered iteration).
-/

/-- A decision variable `(i, j, k)`: task `i`, person `j`, time slot `k`. -/
abbrev V : Type := ℕ × ℕ × ℕ

/-- Numeric value of a binary variable. -/
def boolVal (b : Bool) : ℚ := if b then 1 else 0

/-! ### String helpers mirroring the Python string operations -/

/-- `segStartsAt pat s`: the character list `pat` is a prefix of `s`
(mirrors the initial-segment check underlying Python's `in`). -/
def segStartsAt : List Char → List Char → Bool
  | [], _ => true
  | _ :: _, [] => false
  | c :: cs, d :: ds => c == d && segStartsAt cs ds

/-- `segOccurs pat s`: `pat` occurs as a contiguous segment of `s`
(mirrors Python's substring test `pat in s`). -/
def segOccurs (pat : List Char) : List Char → Bool
  | [] => pat.isEmpty
  | c :: rest => segStartsAt pat (c :: rest) || segOccurs pat rest

/-- Split a character list on ASCII commas
(mirrors Python's `str.split(',')`, keeping empty pieces). -/
def splitOnComma : List Char → List (List Char)
  | [] => [[]]
  | c :: cs =>
    if c = ',' then [] :: splitOnComma cs
    else
      match splitOnComma cs with
      | [] => [[c]]
      | w :: ws => (c :: w) :: ws

/-- Remove leading and trailing whitespace (mirrors Python's `str.strip()`). -/
def stripEnds (l : List Char) : List Char :=
  ((l.dropWhile Char.isWhitespace).reverse.dropWhile Char.isWhitespace).reverse

/-- The keyword tokens of a task-type string: replace full-width commas by
ASCII commas, split on commas, strip each word (qubo.py line 106). -/
def taskTypeWords (t : String) : List (List Char) :=
  (splitOnComma (t.data.map fun c => if c = '、' then ',' else c)).map stripEnds

/-- `hasSkillMatch taskType personName`: some keyword of the task type occurs
as a substring of the person's name (qubo.py lines 111-116). -/
def hasSkillMatch (taskType personName : String) : Bool :=
  (taskTypeWords taskType).any fun w => segOccurs w personName.data

/-! ### The binary quadratic model -/

/-- All 2-element combinations of a list, in order
(mirrors `itertools.combinations(l, 2)`). -/
def combinations2 : List α → List (α × α)
  | [] => []
  | x :: xs => (xs.map fun y => (x, y)) ++ combinations2 xs

/-- A binary quadratic model as accumulated additive contributions:
`linL` records every `add_linear` call, `quadL` every `add_quadratic` call,
`offset` the accumulated constant. -/
structure BQM where
  linL : List (V × ℚ)
  quadL : List ((V × V) × ℚ)
  offset : ℚ

/-- The final linear coefficient of a variable: the sum of all linear
contributions recorded for it (dimod accumulates additions). -/
def BQM.lin (m : BQM) (v : V) : ℚ :=
  ((m.linL.filter fun e => e.1 = v).map fun e => e.2).sum

/-- The final quadratic coefficient of an unordered pair of variables. -/
def BQM.quad (m : BQM) (u v : V) : ℚ :=
  ((m.quadL.filter fun e =>
      (e.1.1 = u ∧ e.1.2 = v) ∨ (e.1.1 = v ∧ e.1.2 = u)).map fun e => e.2).sum

/-- Every variable mentioned by some contribution (dimod creates a variable
on first `add_linear`/`add_quadratic` touching it). -/
def BQM.varsL (m : BQM) : List V :=
  (m.linL.map fun e => e.1) ++ m.quadL.flatMap fun e => [e.1.1, e.1.2]

/-- The variable set of the model. -/
def BQM.vars (m : BQM) : Finset V := m.varsL.toFinset

/-- Energy of a binary assignment `x` under the model:
`offset + Σ linear + Σ quadratic` contributions. -/
def BQM.energy (m : BQM) (x : V → Bool) : ℚ :=
  m.offset + (m.linL.map fun e => e.2 * boolVal (x e.1)).sum
    + (m.quadL.map fun e => e.2 * boolVal (x e.1.1) * boolVal (x e.1.2)).sum

/-! ### build_qubo (qubo.py lines 63-124) -/

/-- The base-cost pass (qubo.py lines 68-71): one linear contribution `c`
for every variable of the grid, in loop order `i, j, k`. -/
def gridLin (nT nP nS : ℕ) (c : ℚ) : List (V × ℚ) :=
  (List.range nT).flatMap fun i =>
    (List.range nP).flatMap fun j =>
      (List.range nS).map fun k => (((i, j, k) : V), c)

/-- `vars_i` of qubo.py line 75: task `i`'s variables over all `(j, k)`. -/
def coverVars (nP nS i : ℕ) : List V :=
  (List.range nP).flatMap fun j => (List.range nS).map fun k => (i, j, k)

/-- Linear contributions of the task-coverage term for task `i`
(qubo.py lines 77-78). -/
def coverLin (nP nS : ℕ) (A : ℚ) (i : ℕ) : List (V × ℚ) :=
  (coverVars nP nS i).map fun v => (v, -A)

/-- Quadratic contributions of the task-coverage term for task `i`
(qubo.py lines 80-81). -/
def coverQuad (nP nS : ℕ) (A : ℚ) (i : ℕ) : List ((V × V) × ℚ) :=
  (combinations2 (coverVars nP nS i)).map fun p => (p, 2 * A)

/-- `vars_jk` of qubo.py line 88: the variables of person `j` at slot `k`. -/
def overlapVars (nT j k : ℕ) : List V :=
  (List.range nT).map fun i => (i, j, k)

/-- Linear contributions of the overlap term (qubo.py lines 90-91). -/
def overlapLinBlock (nT nP nS : ℕ) (B : ℚ) : List (V × ℚ) :=
  (List.range nP).flatMap fun j =>
    (List.range nS).flatMap fun k =>
      (overlapVars nT j k).map fun v => (v, -B)

/-- Quadratic contributions of the overlap term (qubo.py lines 93-94). -/
def overlapQuadBlock (nT nP nS : ℕ) (B : ℚ) : List ((V × V) × ℚ) :=
  (List.range nP).flatMap fun j =>
    (List.range nS).flatMap fun k =>
      (combinations2 (overlapVars nT j k)).map fun p => (p, 2 * B)

/-- Quadratic contributions of the context-switch term
(qubo.py lines 97-101): ordered pairs of distinct tasks of different type,
between consecutive slots. -/
def switchQuadBlock (tasks : List (String × String)) (nP nS : ℕ) (Csw : ℚ) :
    List ((V × V) × ℚ) :=
  (List.range nP).flatMap fun j =>
    (List.range (nS - 1)).flatMap fun k =>
      (List.range tasks.length).flatMap fun i1 =>
        (List.range tasks.length).flatMap fun i2 =>
          if i1 ≠ i2 ∧ (tasks.getD i1 ("", "")).2 ≠ (tasks.getD i2 ("", "")).2
          then [(((i1, j, k), (i2, j, k + 1)), Csw)] else []

/-- Linear contributions of the skill-match reward (qubo.py lines 104-122):
`-R` on every slot of a matching task/person pair. -/
def skillLinBlock (tasks : List (String × String)) (people : List String)
    (nS : ℕ) (R : ℚ) : List (V × ℚ) :=
  (List.range tasks.length).flatMap fun i =>
    (List.range people.length).flatMap fun j =>
      if hasSkillMatch (tasks.getD i ("", "")).2 (people.getD j "")
      then (List.range nS).map fun k => (((i, j, k) : V), -R) else []

/-- Shallow embedding of `build_qubo` (qubo.py lines 21-124).  The five
construction passes accumulate additive contributions; the offset collects
`+penalty_task` once per task (qubo.py line 83). -/
def build_qubo (tasks : List (String × String)) (people : List String)
    (slots : ℕ) (penalty_task penalty_overlap penalty_switch
    reward_skill_match base_cost : ℚ) : BQM :=
  { linL := gridLin tasks.length people.length slots base_cost
      ++ (List.range tasks.length).flatMap
          (coverLin people.length slots penalty_task)
      ++ overlapLinBlock tasks.length people.length slots penalty_overlap
      ++ skillLinBlock tasks people slots reward_skill_match
    quadL := (List.range tasks.length).flatMap
          (coverQuad people.length slots penalty_task)
      ++ overlapQuadBlock tasks.length people.length slots penalty_overlap
      ++ switchQuadBlock tasks people.length slots penalty_switch
    offset := ((List.range tasks.length).map fun _ => penalty_task).sum }

/-! ### solve_qubo parameter assembly (solver.py lines 42-54) -/

/-- The keyword arguments handed to the annealing sampler. -/
structure SAParams where
  numReads : ℕ
  numSweeps : ℕ
  betaRange : Option (ℚ × ℚ)
  deriving DecidableEq

/-- Shallow embedding of the parameter assembly inside `solve_qubo`
(solver.py lines 42-54): start from the caller's values, include
`beta_range` only when one is supplied, and raise `num_sweeps` to
`max(sweeps, 2000)` when the model has more than 500 variables.  The
sampler call itself is the external `neal` library. -/
def solve_qubo_params (bqm : BQM) (num_reads sweeps : ℕ)
    (beta_range : Option (ℚ × ℚ)) : SAParams :=
  let params : SAParams :=
    { numReads := num_reads, numSweeps := sweeps, betaRange := beta_range }
  let num_variables := bqm.vars.card
  if num_variables > 500 then { params with numSweeps := max sweeps 2000 }
  else params

/-- Shallow embedding of the beta-range guard in `app.main`
(app.py lines 548-551): the custom range is forwarded only when enabled,
both bounds are present, and `beta_min < beta_max`; otherwise `None`. -/
def main_beta_range (use_custom_beta : Bool)
    (beta_min beta_max : Option ℚ) : Option (ℚ × ℚ) :=
  if use_custom_beta then
    match beta_min, beta_max with
    | some bmin, some bmax => if bmin < bmax then some (bmin, bmax) else none
    | _, _ => none
  else none

/-! ### parse_sampleset (solver.py lines 58-96) -/

/-- A schedule: a dict from person name to a dict from slot index to an
optional task name, embedded as insertion-ordered association lists. -/
abbrev Schedule : Type := List (String × List (ℕ × Option String))

/-- The initial schedule (solver.py line 87): every person maps to a table
sending every slot index in `[0, slots)` to `None`. -/
def initSchedule (people : List String) (slots : ℕ) : Schedule :=
  people.map fun p => (p, (List.range slots).map fun k => (k, (none : Option String)))

/-- Dict assignment `schedule[p][k] = v` for keys already present. -/
def schedUpdate (sched : Schedule) (p : String) (k : ℕ) (v : Option String) :
    Schedule :=
  sched.map fun pe =>
    if pe.1 = p then
      (pe.1, pe.2.map fun se => if se.1 = k then (se.1, v) else se)
    else pe

/-- Dict lookup `schedule[p][k]`: `some` of the stored entry when both keys
are present, `none` when a key is missing. -/
def schedGet (sched : Schedule) (p : String) (k : ℕ) : Option (Option String) :=
  (sched.lookup p).bind fun table => table.lookup k

/-- Shallow embedding of `parse_sampleset` (solver.py lines 58-96): the best
sample is a dict over variables, iterated in insertion order; every variable
with value 1 writes its task name into the schedule; the first sample's
energy is returned unchanged. -/
def parse_sampleset (sample : List (V × ℕ)) (firstEnergy : ℚ)
    (tasks : List (String × String)) (people : List String) (slots : ℕ) :
    Schedule × ℚ :=
  (sample.foldl
    (fun sched e =>
      if e.2 = 1 then
        schedUpdate sched (people.getD e.1.2.1 "") e.1.2.2
          (some (tasks.getD e.1.1 ("", "")).1)
      else sched)
    (initSchedule people slots), firstEnergy)

/-- The coverage accounting in `app.main` (app.py lines 574-578): the set of
task names appearing anywhere in the schedule, computed by the caller from
the decoder's output.  Python's `if task:` skips both `None` and `""`. -/
def mainAssignedTasks (sched : Schedule) : Finset String :=
  (sched.flatMap fun pe => pe.2.filterMap fun se =>
    match se.2 with
    | none => none
    | some t => if t = "" then none else some t).toFinset

/-! ### Derived quantities used to state the claims -/

/-- Sum of the linear contributions recorded for one variable. -/
def keySum (L : List (V × ℚ)) (v : V) : ℚ :=
  ((L.filter fun e => e.1 = v).map fun e => e.2).sum

/-- Value of a list of linear contributions under an assignment. -/
def linVal (L : List (V × ℚ)) (x : V → Bool) : ℚ :=
  (L.map fun e => e.2 * boolVal (x e.1)).sum

/-- Value of a list of quadratic contributions under an assignment. -/
def quadVal (L : List ((V × V) × ℚ)) (x : V → Bool) : ℚ :=
  (L.map fun e => e.2 * boolVal (x e.1.1) * boolVal (x e.1.2)).sum

/-- The energy contribution of the task-coverage pass for one task `i`
(qubo.py lines 74-83): its offset part `+A`, its linear contributions and
its quadratic contributions, evaluated under the assignment `x`. -/
def coverContrib (nP nS : ℕ) (A : ℚ) (i : ℕ) (x : V → Bool) : ℚ :=
  A + linVal (coverLin nP nS A i) x + quadVal (coverQuad nP nS A i) x

/-! ### Lemmas: linear coefficients of build_qubo -/

lemma keySum_nil (v : V) : keySum [] v = 0 := rfl

lemma keySum_append (L1 L2 : List (V × ℚ)) (v : V) :
    keySum (L1 ++ L2) v = keySum L1 v + keySum L2 v := by
  simp [keySum, List.filter_append]

lemma keySum_flatMap_range (f : ℕ → List (V × ℚ)) (n : ℕ) (v : V) :
    keySum ((List.range n).flatMap f) v
      = ∑ i ∈ Finset.range n, keySum (f i) v := by
  induction n with
  | zero => simp [keySum]
  | succ n ih =>
      rw [List.range_succ, List.flatMap_append, keySum_append, ih,
        Finset.sum_range_succ]
      simp [keySum]

lemma keySum_map_range (g : ℕ → V) (n : ℕ) (c : ℚ) (v : V) :
    keySum ((List.range n).map fun k => (g k, c)) v
      = ∑ k ∈ Finset.range n, if g k = v then c else 0 := by
  induction n with
  | zero => simp [keySum]
  | succ n ih =>
      rw [List.range_succ, List.map_append, keySum_append, ih,
        Finset.sum_range_succ]
      congr 1
      by_cases h : g n = v <;> simp [keySum, h]

lemma sum_ite_tuple (nT nP nS : ℕ) (c : ℚ) (a b d : ℕ) :
    (∑ i ∈ Finset.range nT, ∑ j ∈ Finset.range nP, ∑ k ∈ Finset.range nS,
        if ((i, j, k) : V) = (a, b, d) then c else 0)
      = if a < nT ∧ b < nP ∧ d < nS then c else 0 := by
  have e1 : (∑ q ∈ Finset.range nT ×ˢ (Finset.range nP ×ˢ Finset.range nS),
      if q = ((a, b, d) : V) then c else 0)
      = if a < nT ∧ b < nP ∧ d < nS then c else 0 := by
    rw [Finset.sum_ite_eq']
    simp [Finset.mem_product]
  rw [← e1, Finset.sum_product]
  refine Finset.sum_congr rfl fun i _ => ?_
  rw [Finset.sum_product]

lemma sum_ite_tuple_jki (nT nP nS : ℕ) (c : ℚ) (a b d : ℕ) :
    (∑ j ∈ Finset.range nP, ∑ k ∈ Finset.range nS, ∑ i ∈ Finset.range nT,
        if ((i, j, k) : V) = (a, b, d) then c else 0)
      = if a < nT ∧ b < nP ∧ d < nS then c else 0 := by
  calc (∑ j ∈ Finset.range nP, ∑ k ∈ Finset.range nS, ∑ i ∈ Finset.range nT,
        if ((i, j, k) : V) = (a, b, d) then c else 0)
      = ∑ j ∈ Finset.range nP, ∑ i ∈ Finset.range nT, ∑ k ∈ Finset.range nS,
        if ((i, j, k) : V) = (a, b, d) then c else 0 :=
        Finset.sum_congr rfl fun j _ => Finset.sum_comm
    _ = ∑ i ∈ Finset.range nT, ∑ j ∈ Finset.range nP, ∑ k ∈ Finset.range nS,
        if ((i, j, k) : V) = (a, b, d) then c else 0 := Finset.sum_comm
    _ = if a < nT ∧ b < nP ∧ d < nS then c else 0 := sum_ite_tuple nT nP nS c a b d

lemma keySum_gridLin (nT nP nS : ℕ) (c : ℚ) (a b d : ℕ) :
    keySum (gridLin nT nP nS c) (a, b, d)
      = if a < nT ∧ b < nP ∧ d < nS then c else 0 := by
  unfold gridLin
  rw [keySum_flatMap_range, ← sum_ite_tuple nT nP nS c a b d]
  refine Finset.sum_congr rfl fun i _ => ?_
  rw [keySum_flatMap_range]
  exact Finset.sum_congr rfl fun j _ => keySum_map_range _ _ _ _

lemma coverLinBlock_eq_gridLin (nT nP nS : ℕ) (A : ℚ) :
    (List.range nT).flatMap (coverLin nP nS A) = gridLin nT nP nS (-A) := by
  have h : coverLin nP nS A = fun i =>
      (List.range nP).flatMap fun j =>
        (List.range nS).map fun k => (((i, j, k) : V), -A) := by
    funext i
    simp [coverLin, coverVars, List.map_flatMap, List.map_map,
      Function.comp_def]
  unfold gridLin
  rw [h]

lemma keySum_overlapLinBlock (nT nP nS : ℕ) (B : ℚ) (a b d : ℕ) :
    keySum (overlapLinBlock nT nP nS B) (a, b, d)
      = if a < nT ∧ b < nP ∧ d < nS then -B else 0 := by
  unfold overlapLinBlock overlapVars
  rw [keySum_flatMap_range, ← sum_ite_tuple_jki nT nP nS (-B) a b d]
  refine Finset.sum_congr rfl fun j _ => ?_
  rw [keySum_flatMap_range]
  refine Finset.sum_congr rfl fun k _ => ?_
  rw [List.map_map]
  exact keySum_map_range _ _ _ _

lemma keySum_skillLinBlock (tasks : List (String × String))
    (people : List String) (nS : ℕ) (R : ℚ) (a b d : ℕ) :
    keySum (skillLinBlock tasks people nS R) (a, b, d)
      = if a < tasks.length ∧ b < people.length ∧ d < nS
          ∧ hasSkillMatch (tasks.getD a ("", "")).2 (people.getD b "")
        then -R else 0 := by
  unfold skillLinBlock
  have inner : ∀ i j : ℕ,
      keySum (if hasSkillMatch (tasks.getD i ("", "")).2 (people.getD j "")
          then (List.range nS).map fun k => (((i, j, k) : V), -R) else [])
        ((a, b, d) : V)
      = ∑ k ∈ Finset.range nS,
          if ((i, j, k) : V) = (a, b, d)
              ∧ hasSkillMatch (tasks.getD i ("", "")).2 (people.getD j "")
          then -R else 0 := by
    intro i j
    by_cases hq : hasSkillMatch (tasks.getD i ("", "")).2 (people.getD j "")
    · rw [if_pos hq, keySum_map_range]
      exact Finset.sum_congr rfl fun k _ =>
        if_congr ((and_iff_left hq).symm) rfl rfl
    · rw [if_neg hq, keySum_nil]
      exact (Finset.sum_eq_zero fun k _ => if_neg fun h => hq h.2).symm
  have hpoint : ∀ i j k : ℕ,
      (if ((i, j, k) : V) = (a, b, d)
          ∧ hasSkillMatch (tasks.getD i ("", "")).2 (people.getD j "")
        then (-R : ℚ) else 0)
      = (if ((i, j, k) : V) = (a, b, d)
          then (if hasSkillMatch (tasks.getD a ("", "")).2 (people.getD b "")
                then (-R : ℚ) else 0) else 0) := by
    intro i j k
    by_cases he : ((i, j, k) : V) = (a, b, d)
    · obtain ⟨h1, h2, h3⟩ : i = a ∧ j = b ∧ k = d := by
        simpa [Prod.ext_iff] using he
      subst h1; subst h2; subst h3
      simp
    · simp [he]
  rw [keySum_flatMap_range]
  have := sum_ite_tuple tasks.length people.length nS
      (if hasSkillMatch (tasks.getD a ("", "")).2 (people.getD b "")
        then (-R : ℚ) else 0) a b d
  calc (∑ i ∈ Finset.range tasks.length,
        keySum ((List.range people.length).flatMap fun j =>
          if hasSkillMatch (tasks.getD i ("", "")).2 (people.getD j "")
          then (List.range nS).map fun k => (((i, j, k) : V), -R) else [])
          ((a, b, d) : V))
      = ∑ i ∈ Finset.range tasks.length, ∑ j ∈ Finset.range people.length,
          ∑ k ∈ Finset.range nS,
          if ((i, j, k) : V) = (a, b, d)
            then (if hasSkillMatch (tasks.getD a ("", "")).2 (people.getD b "")
                  then (-R : ℚ) else 0) else 0 := by
        refine Finset.sum_congr rfl fun i _ => ?_
        rw [keySum_flatMap_range]
        refine Finset.sum_congr rfl fun j _ => ?_
        rw [inner i j]
        exact Finset.sum_congr rfl fun k _ => hpoint i j k
    _ = if a < tasks.length ∧ b < people.length ∧ d < nS
          ∧ hasSkillMatch (tasks.getD a ("", "")).2 (people.getD b "")
        then -R else 0 := by
        rw [this]
        by_cases hr : a < tasks.length ∧ b < people.length ∧ d < nS
          <;> by_cases hq : hasSkillMatch (tasks.getD a ("", "")).2
              (people.getD b "")
          <;> simp_all

lemma BQM_lin_eq_keySum (m : BQM) (v : V) : m.lin v = keySum m.linL v := rfl

/-- Final linear coefficient of an in-range variable of `build_qubo`. -/
lemma build_qubo_lin (tasks : List (String × String)) (people : List String)
    (slots : ℕ) (A B Csw R base : ℚ) (a b d : ℕ)
    (ha : a < tasks.length) (hb : b < people.length) (hd : d < slots) :
    (build_qubo tasks people slots A B Csw R base).lin (a, b, d)
      = base - A - B
        - (if hasSkillMatch (tasks.getD a ("", "")).2 (people.getD b "")
            then R else 0) := by
  rw [BQM_lin_eq_keySum]
  show keySum (gridLin tasks.length people.length slots base
      ++ (List.range tasks.length).flatMap (coverLin people.length slots A)
      ++ overlapLinBlock tasks.length people.length slots B
      ++ skillLinBlock tasks people slots R) (a, b, d) = _
  rw [keySum_append, keySum_append, keySum_append, keySum_gridLin,
    coverLinBlock_eq_gridLin, keySum_gridLin, keySum_overlapLinBlock,
    keySum_skillLinBlock]
  rw [if_pos ⟨ha, hb, hd⟩, if_pos ⟨ha, hb, hd⟩, if_pos ⟨ha, hb, hd⟩]
  by_cases hq : hasSkillMatch (tasks.getD a ("", "")).2 (people.getD b "")
  · rw [if_pos ⟨ha, hb, hd, hq⟩, if_pos hq]
    ring
  · rw [if_neg fun h => hq h.2.2.2, if_neg hq]
    ring

/-! ### Lemmas: energy and the task-coverage term -/

lemma BQM_energy_eq (m : BQM) (x : V → Bool) :
    m.energy x = m.offset + linVal m.linL x + quadVal m.quadL x := rfl

lemma linVal_append (L1 L2 : List (V × ℚ)) (x : V → Bool) :
    linVal (L1 ++ L2) x = linVal L1 x + linVal L2 x := by
  simp [linVal]

lemma quadVal_append (L1 L2 : List ((V × V) × ℚ)) (x : V → Bool) :
    quadVal (L1 ++ L2) x = quadVal L1 x + quadVal L2 x := by
  simp [quadVal]

lemma linVal_flatMap_range (f : ℕ → List (V × ℚ)) (n : ℕ) (x : V → Bool) :
    linVal ((List.range n).flatMap f) x
      = ∑ i ∈ Finset.range n, linVal (f i) x := by
  induction n with
  | zero => simp [linVal]
  | succ n ih =>
      rw [List.range_succ, List.flatMap_append, linVal_append, ih,
        Finset.sum_range_succ]
      simp [linVal]

lemma quadVal_flatMap_range (f : ℕ → List ((V × V) × ℚ)) (n : ℕ)
    (x : V → Bool) :
    quadVal ((List.range n).flatMap f) x
      = ∑ i ∈ Finset.range n, quadVal (f i) x := by
  induction n with
  | zero => simp [quadVal]
  | succ n ih =>
      rw [List.range_succ, List.flatMap_append, quadVal_append, ih,
        Finset.sum_range_succ]
      simp [quadVal]

lemma linVal_of_snd_zero (L : List (V × ℚ)) (x : V → Bool)
    (h : ∀ e ∈ L, e.2 = 0) : linVal L x = 0 := by
  refine List.sum_eq_zero fun y hy => ?_
  obtain ⟨e, he, rfl⟩ := List.mem_map.mp hy
  rw [h e he]
  ring

lemma quadVal_of_snd_zero (L : List ((V × V) × ℚ)) (x : V → Bool)
    (h : ∀ e ∈ L, e.2 = 0) : quadVal L x = 0 := by
  refine List.sum_eq_zero fun y hy => ?_
  obtain ⟨e, he, rfl⟩ := List.mem_map.mp hy
  rw [h e he]
  ring

lemma gridLin_snd (nT nP nS : ℕ) (c : ℚ) :
    ∀ e ∈ gridLin nT nP nS c, e.2 = c := by
  intro e he
  simp only [gridLin, List.mem_flatMap, List.mem_map, List.mem_range] at he
  obtain ⟨i, _, j, _, k, _, rfl⟩ := he
  rfl

lemma overlapLinBlock_snd (nT nP nS : ℕ) (B : ℚ) :
    ∀ e ∈ overlapLinBlock nT nP nS B, e.2 = -B := by
  intro e he
  simp only [overlapLinBlock, overlapVars, List.mem_flatMap, List.mem_map,
    List.mem_range] at he
  obtain ⟨j, _, k, _, v, _, rfl⟩ := he
  rfl

lemma skillLinBlock_snd (tasks : List (String × String))
    (people : List String) (nS : ℕ) (R : ℚ) :
    ∀ e ∈ skillLinBlock tasks people nS R, e.2 = -R := by
  intro e he
  simp only [skillLinBlock, List.mem_flatMap, List.mem_range] at he
  obtain ⟨i, _, j, _, hin⟩ := he
  by_cases hq : hasSkillMatch (tasks.getD i ("", "")).2 (people.getD j "")
  · rw [if_pos hq] at hin
    obtain ⟨k, _, rfl⟩ := List.mem_map.mp hin
    rfl
  · rw [if_neg hq] at hin
    exact absurd hin (List.not_mem_nil e)

lemma overlapQuadBlock_snd (nT nP nS : ℕ) (B : ℚ) :
    ∀ e ∈ overlapQuadBlock nT nP nS B, e.2 = 2 * B := by
  intro e he
  simp only [overlapQuadBlock, List.mem_flatMap, List.mem_map,
    List.mem_range] at he
  obtain ⟨j, _, k, _, p, _, rfl⟩ := he
  rfl

lemma switchQuadBlock_snd (tasks : List (String × String)) (nP nS : ℕ)
    (Csw : ℚ) : ∀ e ∈ switchQuadBlock tasks nP nS Csw, e.2 = Csw := by
  intro e he
  simp only [switchQuadBlock, List.mem_flatMap, List.mem_range] at he
  obtain ⟨j, _, k, _, i1, _, i2, _, hin⟩ := he
  by_cases hq : i1 ≠ i2 ∧ (tasks.getD i1 ("", "")).2 ≠ (tasks.getD i2 ("", "")).2
  · rw [if_pos hq] at hin
    rw [List.mem_singleton.mp hin]
  · rw [if_neg hq] at hin
    exact absurd hin (List.not_mem_nil e)

lemma sum_const_range (n : ℕ) (A : ℚ) :
    ((List.range n).map fun _ => A).sum = n * A := by
  induction n with
  | zero => simp
  | succ n ih =>
      rw [List.range_succ, List.map_append, List.sum_append, ih]
      push_cast
      simp
      ring

/-- With all weights except `penalty_task` set to zero, the energy of the
model built by `build_qubo` decomposes as the sum over tasks of the
task-coverage contributions. -/
lemma build_qubo_energy_cover (tasks : List (String × String))
    (people : List String) (slots : ℕ) (A : ℚ) (x : V → Bool) :
    (build_qubo tasks people slots A 0 0 0 0).energy x
      = ∑ i ∈ Finset.range tasks.length,
          coverContrib people.length slots A i x := by
  rw [BQM_energy_eq]
  have hL : linVal (build_qubo tasks people slots A 0 0 0 0).linL x
      = ∑ i ∈ Finset.range tasks.length,
          linVal (coverLin people.length slots A i) x := by
    show linVal (gridLin tasks.length people.length slots 0
        ++ (List.range tasks.length).flatMap (coverLin people.length slots A)
        ++ overlapLinBlock tasks.length people.length slots 0
        ++ skillLinBlock tasks people slots 0) x = _
    rw [linVal_append, linVal_append, linVal_append,
      linVal_of_snd_zero (gridLin tasks.length people.length slots 0) x
        (gridLin_snd _ _ _ _),
      linVal_of_snd_zero (overlapLinBlock tasks.length people.length slots 0)
        x (fun e he => by
          rw [overlapLinBlock_snd tasks.length people.length slots 0 e he]
          exact neg_zero),
      linVal_of_snd_zero (skillLinBlock tasks people slots 0) x
        (fun e he => by
          rw [skillLinBlock_snd tasks people slots 0 e he]
          exact neg_zero),
      linVal_flatMap_range]
    ring
  have hQ : quadVal (build_qubo tasks people slots A 0 0 0 0).quadL x
      = ∑ i ∈ Finset.range tasks.length,
          quadVal (coverQuad people.length slots A i) x := by
    show quadVal ((List.range tasks.length).flatMap
          (coverQuad people.length slots A)
        ++ overlapQuadBlock tasks.length people.length slots 0
        ++ switchQuadBlock tasks people.length slots 0) x = _
    rw [quadVal_append, quadVal_append,
      quadVal_of_snd_zero (overlapQuadBlock tasks.length people.length slots 0)
        x (fun e he => by
          rw [overlapQuadBlock_snd tasks.length people.length slots 0 e he]
          ring),
      quadVal_of_snd_zero (switchQuadBlock tasks people.length slots 0) x
        (switchQuadBlock_snd _ _ _ _),
      quadVal_flatMap_range]
    ring
  have hO : (build_qubo tasks people slots A 0 0 0 0).offset
      = tasks.length * A := sum_const_range _ _
  rw [hL, hQ, hO]
  unfold coverContrib
  rw [Finset.sum_add_distrib, Finset.sum_add_distrib, Finset.sum_const,
    Finset.card_range, nsmul_eq_mul]

lemma combinations2_map (f : α → β) (l : List α) :
    combinations2 (l.map f) = (combinations2 l).map fun p => (f p.1, f p.2) := by
  induction l with
  | nil => rfl
  | cons a l ih =>
      simp [combinations2, ih, List.map_map, Function.comp_def]

lemma comb2_sq (l : List ℚ) :
    l.sum ^ 2 = (l.map fun a => a ^ 2).sum
      + 2 * ((combinations2 l).map fun p => p.1 * p.2).sum := by
  induction l with
  | nil => simp [combinations2]
  | cons a l ih =>
      simp only [combinations2, List.map_append, List.sum_append,
        List.map_map, List.map_cons, List.sum_cons]
      have h1 : ((fun p : ℚ × ℚ => p.1 * p.2) ∘ fun y => (a, y)) =
          fun y => a * y := rfl
      rw [h1]
      have h2 : (l.map fun y => a * y).sum = a * l.sum := by
        simpa using List.sum_map_mul_left l id a
      rw [h2]
      linear_combination ih

lemma boolVal_sq (b : Bool) : boolVal b ^ 2 = boolVal b := by
  cases b <;> simp [boolVal]

lemma sum_boolVal_eq_countP (l : List V) (x : V → Bool) :
    (l.map fun v => boolVal (x v)).sum = ((l.countP fun v => x v : ℕ) : ℚ) := by
  induction l with
  | nil => simp
  | cons a l ih =>
      rw [List.map_cons, List.sum_cons, ih, List.countP_cons]
      cases h : x a
      · simp [boolVal, h]
      · simp [boolVal, h]
        ring

lemma linVal_coverLin (nP nS : ℕ) (A : ℚ) (i : ℕ) (x : V → Bool) :
    linVal (coverLin nP nS A i) x
      = -A * ((coverVars nP nS i).map fun v => boolVal (x v)).sum := by
  unfold linVal coverLin
  rw [List.map_map]
  have h : ((fun e : V × ℚ => e.2 * boolVal (x e.1)) ∘ fun v => (v, -A))
      = fun v => -A * boolVal (x v) := rfl
  rw [h]
  exact List.sum_map_mul_left _ (fun v => boolVal (x v)) (-A)

lemma quadVal_coverQuad (nP nS : ℕ) (A : ℚ) (i : ℕ) (x : V → Bool) :
    quadVal (coverQuad nP nS A i) x
      = 2 * A * ((combinations2 (coverVars nP nS i)).map
          fun p => boolVal (x p.1) * boolVal (x p.2)).sum := by
  unfold quadVal coverQuad
  rw [List.map_map]
  have h : ((fun e : (V × V) × ℚ =>
        e.2 * boolVal (x e.1.1) * boolVal (x e.1.2)) ∘ fun p => (p, 2 * A))
      = fun p : V × V => 2 * A * (boolVal (x p.1) * boolVal (x p.2)) := by
    funext p
    show 2 * A * boolVal (x p.1) * boolVal (x p.2) = _
    ring
  rw [h]
  exact List.sum_map_mul_left _
    (fun p : V × V => boolVal (x p.1) * boolVal (x p.2)) (2 * A)

/-- Closed form of one task-coverage contribution: `A·(m − 1)²` where `m`
counts the active variables of task `i`. -/
lemma coverContrib_closed (nP nS : ℕ) (A : ℚ) (i : ℕ) (x : V → Bool) :
    coverContrib nP nS A i x
      = A * ((((coverVars nP nS i).countP fun v => x v : ℕ) : ℚ) - 1) ^ 2 := by
  have hcomb := comb2_sq ((coverVars nP nS i).map fun v => boolVal (x v))
  rw [combinations2_map, List.map_map, List.map_map] at hcomb
  have hf1 : ((fun a : ℚ => a ^ 2) ∘ fun v : V => boolVal (x v))
      = fun v : V => boolVal (x v) := by
    funext v
    exact boolVal_sq _
  have hf2 : ((fun p : ℚ × ℚ => p.1 * p.2) ∘ fun p : V × V =>
        (boolVal (x p.1), boolVal (x p.2)))
      = fun p : V × V => boolVal (x p.1) * boolVal (x p.2) := rfl
  rw [hf1, hf2] at hcomb
  unfold coverContrib
  rw [linVal_coverLin, quadVal_coverQuad]
  rw [sum_boolVal_eq_countP] at hcomb ⊢
  linear_combination (-A) * hcomb

/-! ### Lemmas: the variable set of build_qubo -/

lemma mem_combinations2 {l : List α} {p : α × α}
    (hp : p ∈ combinations2 l) : p.1 ∈ l ∧ p.2 ∈ l := by
  induction l with
  | nil => cases hp
  | cons a l ih =>
      simp only [combinations2, List.mem_append, List.mem_map] at hp
      rcases hp with ⟨y, hy, rfl⟩ | hp
      · exact ⟨List.mem_cons_self _ _, List.mem_cons_of_mem _ hy⟩
      · obtain ⟨h1, h2⟩ := ih hp
        exact ⟨List.mem_cons_of_mem _ h1, List.mem_cons_of_mem _ h2⟩

lemma mem_coverVars {nP nS i : ℕ} {v : V} :
    v ∈ coverVars nP nS i ↔ v.1 = i ∧ v.2.1 < nP ∧ v.2.2 < nS := by
  simp only [coverVars, List.mem_flatMap, List.mem_map, List.mem_range]
  constructor
  · rintro ⟨j, hj, k, hk, rfl⟩
    exact ⟨rfl, hj, hk⟩
  · rintro ⟨h1, h2, h3⟩
    exact ⟨v.2.1, h2, v.2.2, h3, by subst h1; rfl⟩

lemma mem_overlapVars {nT j k : ℕ} {v : V} :
    v ∈ overlapVars nT j k ↔ v.1 < nT ∧ v.2.1 = j ∧ v.2.2 = k := by
  simp only [overlapVars, List.mem_map, List.mem_range]
  constructor
  · rintro ⟨i, hi, rfl⟩
    exact ⟨hi, rfl, rfl⟩
  · rintro ⟨h1, h2, h3⟩
    exact ⟨v.1, h1, by rw [← h2, ← h3]⟩

lemma build_qubo_mem_varsL (tasks : List (String × String))
    (people : List String) (slots : ℕ) (A B Csw R base : ℚ) (v : V) :
    v ∈ (build_qubo tasks people slots A B Csw R base).varsL
      ↔ v.1 < tasks.length ∧ v.2.1 < people.length ∧ v.2.2 < slots := by
  constructor
  · intro hv
    rw [BQM.varsL, List.mem_append] at hv
    rcases hv with hv | hv
    · obtain ⟨e, he, rfl⟩ := List.mem_map.mp hv
      show e.1.1 < _ ∧ e.1.2.1 < _ ∧ e.1.2.2 < _
      rw [show (build_qubo tasks people slots A B Csw R base).linL
          = gridLin tasks.length people.length slots base
            ++ (List.range tasks.length).flatMap
                (coverLin people.length slots A)
            ++ overlapLinBlock tasks.length people.length slots B
            ++ skillLinBlock tasks people slots R from rfl,
        List.mem_append, List.mem_append, List.mem_append] at he
      rcases he with ((he | he) | he) | he
      · simp only [gridLin, List.mem_flatMap, List.mem_map,
          List.mem_range] at he
        obtain ⟨i, hi, j, hj, k, hk, rfl⟩ := he
        exact ⟨hi, hj, hk⟩
      · simp only [coverLin, List.mem_flatMap, List.mem_map,
          List.mem_range] at he
        obtain ⟨i, hi, w, hw, rfl⟩ := he
        obtain ⟨h1, h2, h3⟩ := mem_coverVars.mp hw
        exact ⟨h1 ▸ hi, h2, h3⟩
      · simp only [overlapLinBlock, List.mem_flatMap, List.mem_map,
          List.mem_range] at he
        obtain ⟨j, hj, k, hk, w, hw, rfl⟩ := he
        obtain ⟨h1, h2, h3⟩ := mem_overlapVars.mp hw
        exact ⟨h1, h2 ▸ hj, h3 ▸ hk⟩
      · simp only [skillLinBlock, List.mem_flatMap, List.mem_range] at he
        obtain ⟨i, hi, j, hj, hin⟩ := he
        by_cases hq : hasSkillMatch (tasks.getD i ("", "")).2 (people.getD j "")
        · rw [if_pos hq] at hin
          obtain ⟨k, hk, rfl⟩ := List.mem_map.mp hin
          exact ⟨hi, hj, List.mem_range.mp hk⟩
        · rw [if_neg hq] at hin
          exact absurd hin (List.not_mem_nil e)
    · obtain ⟨e, he, hv⟩ := List.mem_flatMap.mp hv
      rw [show (build_qubo tasks people slots A B Csw R base).quadL
          = (List.range tasks.length).flatMap
              (coverQuad people.length slots A)
            ++ overlapQuadBlock tasks.length people.length slots B
            ++ switchQuadBlock tasks people.length slots Csw from rfl,
        List.mem_append, List.mem_append] at he
      have hv' : v = e.1.1 ∨ v = e.1.2 := by
        simpa using hv
      rcases he with (he | he) | he
      · simp only [coverQuad, List.mem_flatMap, List.mem_map,
          List.mem_range] at he
        obtain ⟨i, hi, p, hp, rfl⟩ := he
        obtain ⟨hp1, hp2⟩ := mem_combinations2 hp
        rcases hv' with rfl | rfl
        · obtain ⟨h1, h2, h3⟩ := mem_coverVars.mp hp1
          exact ⟨h1 ▸ hi, h2, h3⟩
        · obtain ⟨h1, h2, h3⟩ := mem_coverVars.mp hp2
          exact ⟨h1 ▸ hi, h2, h3⟩
      · simp only [overlapQuadBlock, List.mem_flatMap, List.mem_map,
          List.mem_range] at he
        obtain ⟨j, hj, k, hk, p, hp, rfl⟩ := he
        obtain ⟨hp1, hp2⟩ := mem_combinations2 hp
        rcases hv' with rfl | rfl
        · obtain ⟨h1, h2, h3⟩ := mem_overlapVars.mp hp1
          exact ⟨h1, h2 ▸ hj, h3 ▸ hk⟩
        · obtain ⟨h1, h2, h3⟩ := mem_overlapVars.mp hp2
          exact ⟨h1, h2 ▸ hj, h3 ▸ hk⟩
      · simp only [switchQuadBlock, List.mem_flatMap, List.mem_range] at he
        obtain ⟨j, hj, k, hk, i1, hi1, i2, hi2, hin⟩ := he
        by_cases hq : i1 ≠ i2
            ∧ (tasks.getD i1 ("", "")).2 ≠ (tasks.getD i2 ("", "")).2
        · rw [if_pos hq, List.mem_singleton] at hin
          subst hin
          rcases hv' with rfl | rfl
          · refine ⟨hi1, hj, ?_⟩
            show k < slots
            omega
          · refine ⟨hi2, hj, ?_⟩
            show k + 1 < slots
            omega
        · rw [if_neg hq] at hin
          exact absurd hin (List.not_mem_nil e)
  · rintro ⟨h1, h2, h3⟩
    rw [BQM.varsL, List.mem_append]
    left
    refine List.mem_map.mpr ⟨((v.1, v.2.1, v.2.2), base), ?_, rfl⟩
    show _ ∈ gridLin tasks.length people.length slots base
        ++ (List.range tasks.length).flatMap (coverLin people.length slots A)
        ++ overlapLinBlock tasks.length people.length slots B
        ++ skillLinBlock tasks people slots R
    rw [List.mem_append, List.mem_append, List.mem_append]
    refine Or.inl (Or.inl (Or.inl ?_))
    simp only [gridLin, List.mem_flatMap, List.mem_map, List.mem_range]
    exact ⟨v.1, h1, v.2.1, h2, v.2.2, h3, rfl⟩

/-! ### Lemmas: parse_sampleset -/

lemma lookup_append_or {α β : Type} [BEq α] (l1 l2 : List (α × β)) (a : α) :
    (l1 ++ l2).lookup a = (l1.lookup a).or (l2.lookup a) := by
  induction l1 with
  | nil => simp [List.lookup]
  | cons e l1 ih =>
      rw [List.cons_append]
      show List.lookup a (e :: (l1 ++ l2)) = _
      cases h : a == e.1
      · simp [List.lookup, h, ih]
      · simp [List.lookup, h]

lemma lookup_range_map_const {β : Type} (b : β) (n k : ℕ) :
    ((List.range n).map fun i => (i, b)).lookup k
      = if k < n then some b else none := by
  induction n with
  | zero => simp [List.lookup]
  | succ n ih =>
      rw [List.range_succ, List.map_append, lookup_append_or, ih]
      by_cases h : k < n
      · have : k < n + 1 := by omega
        simp [h, this]
      · by_cases h2 : k = n
        · subst h2
          simp [h, List.lookup]
        · have : ¬k < n + 1 := by omega
          simp [h, this, List.lookup, Ne.symm h2, beq_false_of_ne h2]

lemma lookup_map_self {β : Type} (b : β) (l : List String) (p : String)
    (hp : p ∈ l) : (l.map fun q => (q, b)).lookup p = some b := by
  induction l with
  | nil => cases hp
  | cons q l ih =>
      rw [List.map_cons]
      cases h : p == q
      · have : p ∈ l := by
          rcases List.mem_cons.mp hp with rfl | hm
          · simp at h
          · exact hm
        simp [List.lookup, h, ih this]
      · simp [List.lookup, h]

lemma schedGet_init (people : List String) (slots : ℕ) (p : String) (k : ℕ)
    (hp : p ∈ people) (hk : k < slots) :
    schedGet (initSchedule people slots) p k = some none := by
  rw [schedGet, initSchedule, lookup_map_self _ _ _ hp]
  simp [lookup_range_map_const, hk]

lemma lookup_tableUpdate (t : List (ℕ × Option String)) (k : ℕ)
    (v : Option String) (k' : ℕ) :
    (t.map fun se => if se.1 = k then (se.1, v) else se).lookup k'
      = (t.lookup k').map fun old => if k' = k then v else old := by
  induction t with
  | nil => simp [List.lookup]
  | cons se t ih =>
      rw [List.map_cons]
      by_cases h1 : se.1 = k
      · rw [if_pos h1]
        cases h2 : k' == se.1
        · have h2' : ¬(k' = se.1) := by simpa using h2
          simp [List.lookup, h2, ih]
        · have h2' : k' = se.1 := by simpa using h2
          subst h2'
          simp [List.lookup, h1]
      · rw [if_neg h1]
        cases h2 : k' == se.1
        · simp [List.lookup, h2, ih]
        · have h2' : k' = se.1 := by simpa using h2
          subst h2'
          simp [List.lookup, h1]

lemma lookup_schedUpdate (sched : Schedule) (p : String) (k : ℕ)
    (v : Option String) (p' : String) :
    (schedUpdate sched p k v).lookup p'
      = (sched.lookup p').map fun t =>
          if p' = p then t.map fun se => if se.1 = k then (se.1, v) else se
          else t := by
  induction sched with
  | nil => simp [schedUpdate, List.lookup]
  | cons pe sched ih =>
      rw [schedUpdate, List.map_cons]
      by_cases h1 : pe.1 = p
      · rw [if_pos h1]
        cases h2 : p' == pe.1
        · have h2' : ¬(p' = pe.1) := by simpa using h2
          rw [show schedUpdate sched p k v
              = sched.map fun pe =>
                if pe.1 = p then
                  (pe.1, pe.2.map fun se => if se.1 = k then (se.1, v) else se)
                else pe from rfl] at ih
          simp [List.lookup, h2, ih]
        · have h2' : p' = pe.1 := by simpa using h2
          subst h2'
          simp [List.lookup, h1]
      · rw [if_neg h1]
        cases h2 : p' == pe.1
        · rw [show schedUpdate sched p k v
              = sched.map fun pe =>
                if pe.1 = p then
                  (pe.1, pe.2.map fun se => if se.1 = k then (se.1, v) else se)
                else pe from rfl] at ih
          simp [List.lookup, h2, ih]
        · have h2' : p' = pe.1 := by simpa using h2
          subst h2'
          simp [List.lookup, h1]

lemma schedGet_schedUpdate (sched : Schedule) (p : String) (k : ℕ)
    (v : Option String) (p' : String) (k' : ℕ) :
    schedGet (schedUpdate sched p k v) p' k'
      = (schedGet sched p' k').map fun old =>
          if p' = p ∧ k' = k then v else old := by
  rw [schedGet, schedGet, lookup_schedUpdate]
  cases hs : sched.lookup p' with
  | none => simp
  | some t =>
      show (if p' = p then t.map fun se => if se.1 = k then (se.1, v) else se
            else t).lookup k'
          = Option.map (fun old => if p' = p ∧ k' = k then v else old)
              (t.lookup k')
      by_cases h1 : p' = p
      · rw [if_pos h1, lookup_tableUpdate]
        cases ht : t.lookup k' with
        | none => simp
        | some old =>
            by_cases h2 : k' = k
            · simp [h1, h2]
            · simp [h1, h2]
      · rw [if_neg h1]
        cases ht : t.lookup k' with
        | none => simp
        | some old => simp [h1]

lemma getD_inj (people : List String) (hnd : people.Nodup) (j j' : ℕ)
    (hj : j < people.length) (hj' : j' < people.length)
    (h : people.getD j "" = people.getD j' "") : j = j' := by
  rw [List.getD_eq_getElem _ _ hj, List.getD_eq_getElem _ _ hj'] at h
  exact hnd.getElem_inj_iff.mp h

lemma foldl_if_eq_getLast {α β : Type} (P : α → Prop) [DecidablePred P]
    (f : α → β) :
    ∀ (l : List α) (cur : β),
      l.foldl (fun acc e => if P e then f e else acc) cur
        = ((l.filter fun e => P e).getLast?).elim cur f := by
  intro l
  induction l with
  | nil => intro cur; simp
  | cons a l ih =>
      intro cur
      rw [List.foldl_cons, List.filter_cons]
      by_cases h : P a
      · rw [if_pos h, if_pos (by simpa using h), ih]
        cases hL : l.filter (fun e => decide (P e)) with
        | nil => rfl
        | cons b bs =>
            rw [List.getLast?_cons_cons,
              List.getLast?_eq_getLast (b :: bs) (by simp)]
            rfl
      · rw [if_neg h, if_neg (by simpa using h), ih]

/-- One step of the decoding loop, seen through `schedGet`: a variable with
value 1 addressed at the looked-up cell overwrites it, anything else leaves
it unchanged. -/
lemma parse_step_schedGet (tasks : List (String × String))
    (people : List String) (j k : ℕ) (hnd : people.Nodup)
    (hj : j < people.length) (e : V × ℕ) (hje : e.1.2.1 < people.length)
    (sched : Schedule) (cur : Option String)
    (h : schedGet sched (people.getD j "") k = some cur) :
    schedGet (if e.2 = 1 then
        schedUpdate sched (people.getD e.1.2.1 "") e.1.2.2
          (some (tasks.getD e.1.1 ("", "")).1)
      else sched) (people.getD j "") k
      = some (if e.2 = 1 ∧ e.1.2.1 = j ∧ e.1.2.2 = k
          then some (tasks.getD e.1.1 ("", "")).1 else cur) := by
  by_cases h1 : e.2 = 1
  · rw [if_pos h1, schedGet_schedUpdate, h]
    have hred : Option.map (fun old =>
        if people.getD j "" = people.getD e.1.2.1 "" ∧ k = e.1.2.2
        then some (tasks.getD e.1.1 ("", "")).1 else old) (some cur)
        = some (if people.getD j "" = people.getD e.1.2.1 "" ∧ k = e.1.2.2
            then some (tasks.getD e.1.1 ("", "")).1 else cur) := rfl
    rw [hred]
    by_cases h2 : e.1.2.1 = j ∧ e.1.2.2 = k
    · rw [if_pos (⟨by rw [h2.1], h2.2.symm⟩ :
          people.getD j "" = people.getD e.1.2.1 "" ∧ k = e.1.2.2),
        if_pos ⟨h1, h2⟩]
    · rw [if_neg (fun hc =>
          h2 ⟨getD_inj people hnd e.1.2.1 j hje hj hc.1.symm, hc.2.symm⟩),
        if_neg (fun hc => h2 hc.2)]
  · rw [if_neg h1, h]
    rw [if_neg fun hc => h1 hc.1]

/-- The decoding loop through `schedGet`, for any starting schedule whose
looked-up cell is present. -/
lemma parse_foldl_schedGet (tasks : List (String × String))
    (people : List String) (j k : ℕ) (hnd : people.Nodup)
    (hj : j < people.length) :
    ∀ (sample : List (V × ℕ)),
      (∀ e ∈ sample, e.1.2.1 < people.length) →
      ∀ (sched : Schedule) (cur : Option String),
        schedGet sched (people.getD j "") k = some cur →
        schedGet (sample.foldl
            (fun sched e =>
              if e.2 = 1 then
                schedUpdate sched (people.getD e.1.2.1 "") e.1.2.2
                  (some (tasks.getD e.1.1 ("", "")).1)
              else sched) sched) (people.getD j "") k
          = some (sample.foldl
              (fun acc e =>
                if e.2 = 1 ∧ e.1.2.1 = j ∧ e.1.2.2 = k
                then some (tasks.getD e.1.1 ("", "")).1 else acc) cur) := by
  intro sample
  induction sample with
  | nil => intro _ sched cur h; exact h
  | cons e rest ih =>
      intro hin sched cur h
      rw [List.foldl_cons, List.foldl_cons]
      exact ih (fun e' he' => hin e' (List.mem_cons_of_mem _ he')) _ _
        (parse_step_schedGet tasks people j k hnd hj e
          (hin e (List.mem_cons_self _ _)) sched cur h)

/-! ### The claims -/

/-- Claim C1, failing-input evaluation.  With `penalty_task`,
`penalty_switch`, `reward_skill_match` and `base_cost` all zero and
`penalty_overlap = 1 > 0`, the model built by `build_qubo` for two tasks,
one person and one slot gives energy `0` to the empty assignment (as the
claim states) but also energy `0` — not a strictly positive value — to the
assignment that sets both variables of the single `(j, k) = (0, 0)` cell,
contradicting the claim's strict positivity for two simultaneous tasks. -/
theorem C1_overlap_term_two_active :
    (build_qubo [("A", "x"), ("B", "y")] ["P"] 1 0 1 0 0 0).energy
        (fun _ => false) = 0
      ∧ (build_qubo [("A", "x"), ("B", "y")] ["P"] 1 0 1 0 0 0).energy
        (fun _ => true) = 0 := by
  have hr1 : List.range 1 = [0] := rfl
  have hr2 : List.range 2 = [0, 1] := rfl
  constructor
  · simp +decide [BQM.energy, build_qubo, gridLin, coverLin, coverVars,
      overlapLinBlock, overlapVars, skillLinBlock, coverQuad,
      overlapQuadBlock, switchQuadBlock, combinations2, boolVal, hr1, hr2]
  · simp +decide [BQM.energy, build_qubo, gridLin, coverLin, coverVars,
      overlapLinBlock, overlapVars, skillLinBlock, coverQuad,
      overlapQuadBlock, switchQuadBlock, combinations2, boolVal, hr1, hr2]
    norm_num

/-- Claim C2: with `penalty_overlap`, `penalty_switch`,
`reward_skill_match` and `base_cost` all zero, the energy of the model
built by `build_qubo` is the sum over tasks of the coverage-term
contributions; for any `penalty_task > 0` and task `i`, that contribution
is `0` when exactly one of task `i`'s variables is 1 and strictly positive
when zero or two of them are. -/
theorem C2_task_coverage_term (tasks : List (String × String))
    (people : List String) (slots : ℕ) (A : ℚ) (hA : 0 < A) (i : ℕ)
    (hi : i < tasks.length) (x : V → Bool) :
    (build_qubo tasks people slots A 0 0 0 0).energy x
        = (∑ t ∈ Finset.range tasks.length,
            coverContrib people.length slots A t x)
      ∧ (((coverVars people.length slots i).countP fun v => x v) = 1 →
          coverContrib people.length slots A i x = 0)
      ∧ ((((coverVars people.length slots i).countP fun v => x v) = 0
            ∨ ((coverVars people.length slots i).countP fun v => x v) = 2) →
          0 < coverContrib people.length slots A i x) := by
  refine ⟨build_qubo_energy_cover tasks people slots A x, ?_, ?_⟩
  · intro h1
    rw [coverContrib_closed, h1]
    norm_num
  · intro h
    rw [coverContrib_closed]
    rcases h with h | h <;> rw [h] <;>
      · push_cast
        norm_num
        exact hA

theorem C2_task_coverage_term_witness :
    coverContrib 1 1 (1 : ℚ) 0 (fun _ => true) = 0 :=
  (C2_task_coverage_term [("A", "x")] ["P"] 1 1 (by norm_num) 0 (by decide)
    (fun _ => true)).2.1 (by decide)

/-- Claim C3: for every input with `slots ≥ 1`, the variable set of the
model built by `build_qubo` is exactly the cross product of the task,
person and slot index ranges, so its cardinality is
`len(tasks) · len(people) · slots`. -/
theorem C3_variable_set (tasks : List (String × String))
    (people : List String) (slots : ℕ) (A B Csw R base : ℚ)
    (hs : 1 ≤ slots) :
    (build_qubo tasks people slots A B Csw R base).vars
        = Finset.range tasks.length ×ˢ
            (Finset.range people.length ×ˢ Finset.range slots)
      ∧ (build_qubo tasks people slots A B Csw R base).vars.card
        = tasks.length * people.length * slots := by
  have hset : (build_qubo tasks people slots A B Csw R base).vars
      = Finset.range tasks.length ×ˢ
          (Finset.range people.length ×ˢ Finset.range slots) := by
    ext v
    rw [BQM.vars, List.mem_toFinset, build_qubo_mem_varsL]
    simp [Finset.mem_product]
  refine ⟨hset, ?_⟩
  rw [hset, Finset.card_product, Finset.card_product, Finset.card_range,
    Finset.card_range, Finset.card_range, ← mul_assoc]

theorem C3_variable_set_witness :
    (build_qubo [("A", "x"), ("B", "y")] ["P", "Q"] 3 5 5 1 2 (1/10)).vars.card
      = 12 := by
  have h := (C3_variable_set [("A", "x"), ("B", "y")] ["P", "Q"] 3
    5 5 1 2 (1/10) (by norm_num)).2
  simpa using h

/-- Claim C4: the effective sweep count assembled by `solve_qubo` equals
`max(sweeps, 2000)` when the model has more than 500 variables and the
caller's `sweeps` otherwise, and is never smaller than the caller's
request. -/
theorem C4_sweep_scale_guard (bqm : BQM) (num_reads sweeps : ℕ)
    (br : Option (ℚ × ℚ)) :
    (solve_qubo_params bqm num_reads sweeps br).numSweeps
        = (if bqm.vars.card > 500 then max sweeps 2000 else sweeps)
      ∧ sweeps ≤ (solve_qubo_params bqm num_reads sweeps br).numSweeps := by
  unfold solve_qubo_params
  by_cases h : bqm.vars.card > 500
  · simp [h]
  · simp [h]

/-- Claim C5: a custom beta range with `beta_min ≥ beta_max` is dropped by
the guard in `app.main`, so the solver parameters coincide with those of a
run where no beta range was supplied; no error path exists (the embedding
is total). -/
theorem C5_invalid_beta_range_falls_back (bqm : BQM)
    (num_reads sweeps : ℕ) (bmin bmax : ℚ) (h : bmax ≤ bmin) :
    main_beta_range true (some bmin) (some bmax) = none
      ∧ solve_qubo_params bqm num_reads sweeps
          (main_beta_range true (some bmin) (some bmax))
        = solve_qubo_params bqm num_reads sweeps none := by
  have hm : main_beta_range true (some bmin) (some bmax) = none := by
    unfold main_beta_range
    rw [if_pos rfl]
    exact if_neg (not_lt.mpr h)
  exact ⟨hm, by rw [hm]⟩

theorem C5_invalid_beta_range_falls_back_witness :
    main_beta_range true (some (2 : ℚ)) (some 1) = none
      ∧ solve_qubo_params (build_qubo [] [] 1 0 0 0 0 0) 10 100
          (main_beta_range true (some (2 : ℚ)) (some 1))
        = solve_qubo_params (build_qubo [] [] 1 0 0 0 0 0) 10 100 none :=
  C5_invalid_beta_range_falls_back (build_qubo [] [] 1 0 0 0 0 0) 10 100 2 1
    (by norm_num)

/-- Claim C7: `parse_sampleset` starts from a schedule whose every
person/slot cell holds `None`; after scanning the sample, the cell of
person `j` at slot `k` holds precisely the task name of the last variable
(in iteration order) with value 1 addressed at `(j, k)` — `None` when there
is no such variable, last-write-wins when there are several. -/
theorem C7_parse_sampleset_last_write (sample : List (V × ℕ))
    (en : ℚ) (tasks : List (String × String)) (people : List String)
    (slots : ℕ) (j k : ℕ) (hj : j < people.length) (hk : k < slots)
    (hnd : people.Nodup)
    (hin : ∀ e ∈ sample, e.1.1 < tasks.length
      ∧ e.1.2.1 < people.length ∧ e.1.2.2 < slots) :
    (∀ p ∈ people, ∀ k' : ℕ, k' < slots →
        schedGet (initSchedule people slots) p k' = some none)
      ∧ schedGet (parse_sampleset sample en tasks people slots).1
            (people.getD j "") k
        = some (((sample.filter fun e =>
              e.2 = 1 ∧ e.1.2.1 = j ∧ e.1.2.2 = k).getLast?).map
            fun e => (tasks.getD e.1.1 ("", "")).1) := by
  constructor
  · intro p hp k' hk'
    exact schedGet_init people slots p k' hp hk'
  · have hinit : schedGet (initSchedule people slots)
        (people.getD j "") k = some none := by
      refine schedGet_init people slots _ k ?_ hk
      rw [List.getD_eq_getElem _ _ hj]
      exact List.getElem_mem hj
    have hfold := parse_foldl_schedGet tasks people j k hnd hj sample
      (fun e he => (hin e he).2.1) (initSchedule people slots) none hinit
    rw [show (parse_sampleset sample en tasks people slots).1
        = sample.foldl (fun sched e =>
            if e.2 = 1 then
              schedUpdate sched (people.getD e.1.2.1 "") e.1.2.2
                (some (tasks.getD e.1.1 ("", "")).1)
            else sched) (initSchedule people slots) from rfl]
    rw [hfold]
    rw [foldl_if_eq_getLast
      (fun e : V × ℕ => e.2 = 1 ∧ e.1.2.1 = j ∧ e.1.2.2 = k)
      (fun e : V × ℕ => some (tasks.getD e.1.1 ("", "")).1) sample none]
    cases hls : (sample.filter fun e : V × ℕ =>
        e.2 = 1 ∧ e.1.2.1 = j ∧ e.1.2.2 = k).getLast? <;> simp [hls]

theorem C7_parse_sampleset_last_write_witness :
    schedGet ((parse_sampleset [((0, 0, 0), 1), ((1, 0, 0), 1)] 0
        [("A", "x"), ("B", "y")] ["P"] 1).1) (["P"].getD 0 "") 0
      = some (some "B") := by
  have h := (C7_parse_sampleset_last_write [((0, 0, 0), 1), ((1, 0, 0), 1)] 0
      [("A", "x"), ("B", "y")] ["P"] 1 0 0 (by decide) (by decide) (by decide)
      (by decide)).2
  rw [h]
  rfl

/-- Claim C8: a person whose name matches a keyword of the task's type gets
a linear coefficient exactly `reward_skill_match` lower, on every slot,
than a person with no matching keyword. -/
theorem C8_skill_match_lowers_linear (tasks : List (String × String))
    (people : List String) (slots : ℕ) (A B Csw R base : ℚ)
    (i j1 j2 k : ℕ) (hi : i < tasks.length) (hj1 : j1 < people.length)
    (hj2 : j2 < people.length) (hk : k < slots)
    (hm1 : hasSkillMatch (tasks.getD i ("", "")).2 (people.getD j1 "") = true)
    (hm2 : hasSkillMatch (tasks.getD i ("", "")).2 (people.getD j2 "")
      = false) :
    (build_qubo tasks people slots A B Csw R base).lin (i, j1, k)
      = (build_qubo tasks people slots A B Csw R base).lin (i, j2, k) - R := by
  rw [build_qubo_lin tasks people slots A B Csw R base i j1 k hi hj1 hk,
    build_qubo_lin tasks people slots A B Csw R base i j2 k hi hj2 hk,
    if_pos hm1, if_neg (by rw [hm2]; exact Bool.false_ne_true)]
  ring

theorem C8_skill_match_lowers_linear_witness :
    (build_qubo [("T", "design")] ["design_Taro", "Hanako"] 2
        5 5 1 2 (1/10)).lin (0, 0, 1)
      = (build_qubo [("T", "design")] ["design_Taro", "Hanako"] 2
          5 5 1 2 (1/10)).lin (0, 1, 1) - 2 :=
  C8_skill_match_lowers_linear [("T", "design")] ["design_Taro", "Hanako"] 2
    5 5 1 2 (1/10) 0 0 1 1 (by decide) (by decide) (by decide) (by decide)
    (by decide) (by decide)

/-- Claim C9: even when two or more distinct keywords of the task's type
all occur in the person's name, `build_qubo` subtracts
`reward_skill_match` from the linear coefficient exactly once — the bonus
does not stack per matching keyword. -/
theorem C9_skill_bonus_no_stacking (tasks : List (String × String))
    (people : List String) (slots : ℕ) (A B Csw R base : ℚ) (i j k : ℕ)
    (hi : i < tasks.length) (hj : j < people.length) (hk : k < slots)
    (hmulti : 2 ≤ (taskTypeWords (tasks.getD i ("", "")).2).countP
        fun w => segOccurs w (people.getD j "").data) :
    (build_qubo tasks people slots A B Csw R base).lin (i, j, k)
      = base - A - B - R := by
  have hmatch : hasSkillMatch (tasks.getD i ("", "")).2 (people.getD j "")
      = true := by
    rw [hasSkillMatch]
    have hpos : 0 < (taskTypeWords (tasks.getD i ("", "")).2).countP
        (fun w => segOccurs w (people.getD j "").data) := by omega
    obtain ⟨w, hw, hpw⟩ := List.countP_pos_iff.mp hpos
    exact List.any_eq_true.mpr ⟨w, hw, hpw⟩
  rw [build_qubo_lin tasks people slots A B Csw R base i j k hi hj hk,
    if_pos hmatch]

theorem C9_skill_bonus_no_stacking_witness :
    (build_qubo [("T", "design,Taro")] ["design_Taro"] 1
        5 5 1 2 0).lin (0, 0, 0) = 0 - 5 - 5 - 2 :=
  C9_skill_bonus_no_stacking [("T", "design,Taro")] ["design_Taro"] 1
    5 5 1 2 0 0 0 0 (by decide) (by decide) (by decide) (by decide)

lemma flatMap_const_nil {α β : Type} (l : List α) :
    (l.flatMap fun _ => ([] : List β)) = [] := by
  induction l with
  | nil => rfl
  | cons a l ih => simp [ih]

/-- Claim C10: with a non-empty task list, an empty people list and any
`slots ≥ 1`, `build_qubo` produces a model with no contributions and no
variables but a non-zero offset `len(tasks) · penalty_task`, unlike the
empty-tasks degenerate case whose offset is `0`. -/
theorem C10_empty_people_offset (tasks : List (String × String))
    (slots : ℕ) (A B Csw R base : ℚ) (people : List String)
    (ht : tasks ≠ []) (hs : 1 ≤ slots) :
    (build_qubo tasks [] slots A B Csw R base).linL = []
      ∧ (build_qubo tasks [] slots A B Csw R base).quadL = []
      ∧ (build_qubo tasks [] slots A B Csw R base).vars = ∅
      ∧ (build_qubo tasks [] slots A B Csw R base).offset
          = tasks.length * A
      ∧ (0 < A → (build_qubo tasks [] slots A B Csw R base).offset ≠ 0)
      ∧ (build_qubo [] people slots A B Csw R base).offset = 0 := by
  have hgrid : ∀ c : ℚ, gridLin tasks.length 0 slots c = [] := by
    intro c
    simp [gridLin, flatMap_const_nil]
  have hcover : ∀ i, coverLin 0 slots A i = [] := by
    intro i
    simp [coverLin, coverVars, flatMap_const_nil]
  have hcoverq : ∀ i, coverQuad 0 slots A i = [] := by
    intro i
    simp [coverQuad, coverVars, combinations2, flatMap_const_nil]
  have hlin : (build_qubo tasks [] slots A B Csw R base).linL = [] := by
    show gridLin tasks.length 0 slots base
        ++ (List.range tasks.length).flatMap (coverLin 0 slots A)
        ++ overlapLinBlock tasks.length 0 slots B
        ++ skillLinBlock tasks [] slots R = []
    rw [hgrid]
    rw [show (List.range tasks.length).flatMap (coverLin 0 slots A) = [] by
      rw [show coverLin 0 slots A = fun _ => [] from funext hcover]
      exact flatMap_const_nil _]
    rw [show overlapLinBlock tasks.length 0 slots B = [] by
      simp [overlapLinBlock]]
    rw [show skillLinBlock tasks [] slots R = [] by
      simp [skillLinBlock, flatMap_const_nil]]
    rfl
  have hquad : (build_qubo tasks [] slots A B Csw R base).quadL = [] := by
    show (List.range tasks.length).flatMap (coverQuad 0 slots A)
        ++ overlapQuadBlock tasks.length 0 slots B
        ++ switchQuadBlock tasks 0 slots Csw = []
    rw [show (List.range tasks.length).flatMap (coverQuad 0 slots A) = [] by
      rw [show coverQuad 0 slots A = fun _ => [] from funext hcoverq]
      exact flatMap_const_nil _]
    rw [show overlapQuadBlock tasks.length 0 slots B = [] by
      simp [overlapQuadBlock]]
    rw [show switchQuadBlock tasks 0 slots Csw = [] by
      simp [switchQuadBlock]]
    rfl
  have hvars : (build_qubo tasks [] slots A B Csw R base).vars = ∅ := by
    rw [BQM.vars, BQM.varsL, hlin, hquad]
    rfl
  have hoff : (build_qubo tasks [] slots A B Csw R base).offset
      = tasks.length * A := sum_const_range _ _
  refine ⟨hlin, hquad, hvars, hoff, ?_, ?_⟩
  · intro hA
    rw [hoff]
    have hne : (tasks.length : ℚ) ≠ 0 := by
      have : tasks.length ≠ 0 := fun hc => ht (List.length_eq_zero.mp hc)
      exact_mod_cast this
    exact mul_ne_zero hne (ne_of_gt hA)
  · show ((List.range (List.length ([] : List (String × String)))).map
        fun _ => A).sum = 0
    rfl

theorem C10_empty_people_offset_witness :
    (build_qubo [("A", "x"), ("B", "y")] [] 3 5 5 1 2 (1/10)).linL = []
      ∧ (build_qubo [("A", "x"), ("B", "y")] [] 3 5 5 1 2 (1/10)).offset = 10
      ∧ (build_qubo [] ["P"] 3 5 5 1 2 (1/10)).offset = 0 := by
  have h := C10_empty_people_offset [("A", "x"), ("B", "y")] 3 5 5 1 2 (1/10)
    ["P"] (by decide) (by norm_num)
  refine ⟨h.1, ?_, h.2.2.2.2.2⟩
  rw [h.2.2.2.1]
  norm_num
